import Mathlib

/-!
Verification of the conda CLI slice (info/search subcommands) and of the
spec-described resolution core (version grammar, match specs, channel
index, resolver preference, persisted cache).  Definitions under the
`Conda` namespace are shallow embeddings: the ones taken from
`src/conda/cli/main_search.py` and `src/conda/cli/main_info.py` follow
that code line by line; components whose bodies are not part of the
repository slice (version ordering, MatchSpec internals, index loading,
the resolver, the channel cache) are modelled from the specification and
carry a doc comment saying so.
-/

namespace Conda

/-! ### Three-way comparison on naturals -/

/-- Three-way comparison of natural numbers. -/
def natCmp (a b : Nat) : Ordering :=
  if a < b then .lt else if a = b then .eq else .gt

theorem natCmp_eq_iff (a b : Nat) : natCmp a b = .eq ↔ a = b := by
  unfold natCmp
  split
  · simp; omega
  · split <;> simp_all

theorem natCmp_swap (a b : Nat) : (natCmp a b).swap = natCmp b a := by
  unfold natCmp
  rcases Nat.lt_trichotomy a b with h | h | h
  · rw [if_pos h, if_neg (by omega : ¬ b < a), if_neg (by omega : ¬ b = a)]; rfl
  · subst h
    rw [if_neg (by omega : ¬ a < a), if_pos rfl]; rfl
  · rw [if_neg (by omega : ¬ a < b), if_neg (by omega : ¬ a = b), if_pos h]; rfl

theorem natCmp_lt_iff (a b : Nat) : natCmp a b = .lt ↔ a < b := by
  unfold natCmp
  split
  · simp_all
  · split <;> simp_all

theorem natCmp_lt_trans {a b c : Nat} (h₁ : natCmp a b = .lt) (h₂ : natCmp b c = .lt) :
    natCmp a c = .lt := by
  rw [natCmp_lt_iff] at *
  omega

theorem natCmp_self (a : Nat) : natCmp a a = .eq := by
  simp [natCmp]

/-! ### Generic lexicographic comparison of lists -/

/-- Lexicographic three-way comparison of lists given a comparison on
elements; a strict prefix compares less. -/
def lexCmp (c : α → α → Ordering) : List α → List α → Ordering
  | [], [] => .eq
  | [], _ :: _ => .lt
  | _ :: _, [] => .gt
  | x :: xs, y :: ys =>
    match c x y with
    | .eq => lexCmp c xs ys
    | o => o

theorem lexCmp_nil_nil (c : α → α → Ordering) : lexCmp c [] [] = .eq := rfl

theorem lexCmp_cons_cons (c : α → α → Ordering) (x y : α) (xs ys : List α) :
    lexCmp c (x :: xs) (y :: ys) =
      match c x y with
      | .eq => lexCmp c xs ys
      | o => o := rfl

theorem lexCmp_swap (c : α → α → Ordering) (hsw : ∀ a b, (c a b).swap = c b a) :
    ∀ xs ys, (lexCmp c xs ys).swap = lexCmp c ys xs := by
  intro xs
  induction xs with
  | nil => intro ys; cases ys <;> rfl
  | cons x xs ih =>
    intro ys
    cases ys with
    | nil => rfl
    | cons y ys =>
      rw [lexCmp_cons_cons, lexCmp_cons_cons, ← hsw x y]
      cases hxy : c x y with
      | eq => exact ih ys
      | lt => rfl
      | gt => rfl

theorem lexCmp_eq_iff (c : α → α → Ordering) (heq : ∀ a b, c a b = .eq ↔ a = b) :
    ∀ xs ys, lexCmp c xs ys = .eq ↔ xs = ys := by
  intro xs
  induction xs with
  | nil => intro ys; cases ys <;> simp [lexCmp]
  | cons x xs ih =>
    intro ys
    cases ys with
    | nil => simp [lexCmp]
    | cons y ys =>
      rw [lexCmp_cons_cons]
      cases hxy : c x y with
      | eq => simp [(heq x y).mp hxy, ih ys]
      | lt =>
        have : x ≠ y := fun h => by simp [h, (heq y y).mpr rfl] at hxy
        simp [this]
      | gt =>
        have : x ≠ y := fun h => by simp [h, (heq y y).mpr rfl] at hxy
        simp [this]

theorem lexCmp_lt_trans (c : α → α → Ordering)
    (heq : ∀ a b, c a b = .eq ↔ a = b)
    (htr : ∀ a b d, c a b = .lt → c b d = .lt → c a d = .lt) :
    ∀ xs ys zs, lexCmp c xs ys = .lt → lexCmp c ys zs = .lt → lexCmp c xs zs = .lt := by
  intro xs
  induction xs with
  | nil =>
    intro ys zs h₁ h₂
    cases ys with
    | nil => exact h₂
    | cons y ys => cases zs with
      | nil => simp [lexCmp] at h₂
      | cons z zs => rfl
  | cons x xs ih =>
    intro ys zs h₁ h₂
    cases ys with
    | nil => simp [lexCmp] at h₁
    | cons y ys =>
      cases zs with
      | nil => simp [lexCmp] at h₂
      | cons z zs =>
        rw [lexCmp_cons_cons] at h₁ h₂ ⊢
        cases hxy : c x y with
        | gt => simp [hxy] at h₁
        | eq =>
          have hx : x = y := (heq x y).mp hxy
          subst hx
          rw [hxy] at h₁
          cases hyz : c x z with
          | gt => rw [hyz] at h₂; simp at h₂
          | lt => rfl
          | eq =>
            have hz : x = z := (heq x z).mp hyz
            subst hz
            rw [hyz] at h₂
            exact ih ys zs h₁ h₂
        | lt =>
          cases hyz : c y z with
          | gt => rw [hyz] at h₂; simp at h₂
          | eq =>
            have hz : y = z := (heq y z).mp hyz
            subst hz
            simp [hxy]
          | lt => simp [htr x y z hxy hyz]

/-! ### Version values and their ordering

Modelled from the spec: `conda/models/version.py` (the `VersionOrder` class) is
not part of the repository slice; §4.1 of the spec describes `parseVersion` and
the component-wise comparison with the implicit-zero padding rule. -/

/-- A chunk of a version component: a numeric run (compared as an integer) or a
run of letters (compared lexicographically by character code). -/
abbrev Chunk := Sum Nat (List Nat)

/-- A version component is the list of its numeric/alphabetic chunks. -/
abbrev Comp := List Chunk

/-- A parsed version: the list of its dot/dash-delimited components. -/
abbrev Ver := List Comp

/-- Modelled from the spec: chunk comparison — numeric chunks compare as
integers, letter runs compare lexicographically, and a numeric chunk sorts
before a letter run. -/
def chunkCmp : Chunk → Chunk → Ordering
  | Sum.inl a, Sum.inl b => natCmp a b
  | Sum.inl _, Sum.inr _ => .lt
  | Sum.inr _, Sum.inl _ => .gt
  | Sum.inr xs, Sum.inr ys => lexCmp natCmp xs ys

theorem chunkCmp_eq_iff (a b : Chunk) : chunkCmp a b = .eq ↔ a = b := by
  cases a <;> cases b <;>
    simp [chunkCmp, natCmp_eq_iff, lexCmp_eq_iff natCmp natCmp_eq_iff]

theorem chunkCmp_swap (a b : Chunk) : (chunkCmp a b).swap = chunkCmp b a := by
  cases a <;> cases b <;>
    simp [chunkCmp, natCmp_swap, lexCmp_swap natCmp natCmp_swap] <;> rfl

theorem chunkCmp_lt_trans {a b c : Chunk} (h₁ : chunkCmp a b = .lt)
    (h₂ : chunkCmp b c = .lt) : chunkCmp a c = .lt := by
  cases a <;> cases b <;> cases c <;> simp_all [chunkCmp]
  · exact natCmp_lt_trans h₁ h₂
  · exact lexCmp_lt_trans natCmp natCmp_eq_iff (fun _ _ _ => natCmp_lt_trans) _ _ _ h₁ h₂

/-- Modelled from the spec: component comparison is the lexicographic
comparison of chunk lists. -/
def compCmp : Comp → Comp → Ordering := lexCmp chunkCmp

theorem compCmp_eq_iff (a b : Comp) : compCmp a b = .eq ↔ a = b :=
  lexCmp_eq_iff chunkCmp chunkCmp_eq_iff a b

theorem compCmp_swap (a b : Comp) : (compCmp a b).swap = compCmp b a :=
  lexCmp_swap chunkCmp chunkCmp_swap a b

theorem compCmp_lt_trans {a b c : Comp} (h₁ : compCmp a b = .lt)
    (h₂ : compCmp b c = .lt) : compCmp a c = .lt :=
  lexCmp_lt_trans chunkCmp chunkCmp_eq_iff (fun _ _ _ => chunkCmp_lt_trans) a b c h₁ h₂

/-- The implicit minimal "zero" component used by the padding rule. -/
def zeroComp : Comp := [Sum.inl 0]

/-- Pad a version with implicit zero components up to length `n`. -/
def padTo (n : Nat) (v : Ver) : Ver := v ++ List.replicate (n - v.length) zeroComp

theorem padTo_length {n : Nat} {v : Ver} (h : v.length ≤ n) :
    (padTo n v).length = n := by
  simp [padTo]
  omega

/-- Modelled from the spec: version comparison is component-wise after the
shorter version is padded with implicit zero components. -/
def verCmp (a b : Ver) : Ordering :=
  lexCmp compCmp (padTo (max a.length b.length) a) (padTo (max a.length b.length) b)

theorem lexCmp_append (c : α → α → Ordering) :
    ∀ (xs ys us vs : List α), xs.length = ys.length →
      lexCmp c (xs ++ us) (ys ++ vs) =
        match lexCmp c xs ys with
        | .eq => lexCmp c us vs
        | o => o := by
  intro xs
  induction xs with
  | nil =>
    intro ys us vs h
    cases ys with
    | nil => simp [lexCmp]
    | cons y ys => simp at h
  | cons x xs ih =>
    intro ys us vs h
    cases ys with
    | nil => simp at h
    | cons y ys =>
      simp at h
      rw [List.cons_append, List.cons_append, lexCmp_cons_cons, lexCmp_cons_cons]
      cases hxy : c x y with
      | eq => exact ih ys us vs h
      | lt => rfl
      | gt => rfl

theorem lexCmp_replicate_self (c : α → α → Ordering) (z : α) (hz : c z z = .eq) :
    ∀ n, lexCmp c (List.replicate n z) (List.replicate n z) = .eq := by
  intro n
  induction n with
  | zero => rfl
  | succ n ih => simpa [List.replicate_succ, lexCmp_cons_cons, hz] using ih

theorem padTo_split {L n : Nat} {v : Ver} (hv : v.length ≤ L) (hL : L ≤ n) :
    padTo n v = padTo L v ++ List.replicate (n - L) zeroComp := by
  unfold padTo
  rw [List.append_assoc, ← List.replicate_add]
  congr 2
  omega

/-- Comparing two versions after padding both to any common length at least as
large as both is the same as `verCmp`. -/
theorem verCmp_pad (a b : Ver) {n : Nat} (h : max a.length b.length ≤ n) :
    lexCmp compCmp (padTo n a) (padTo n b) = verCmp a b := by
  have hLa : a.length ≤ max a.length b.length := Nat.le_max_left _ _
  have hLb : b.length ≤ max a.length b.length := Nat.le_max_right _ _
  rw [padTo_split hLa h, padTo_split hLb h,
    lexCmp_append compCmp _ _ _ _ (by rw [padTo_length hLa, padTo_length hLb])]
  unfold verCmp
  cases hab : lexCmp compCmp (padTo (max a.length b.length) a)
      (padTo (max a.length b.length) b) with
  | eq => exact lexCmp_replicate_self compCmp zeroComp (by rfl) _
  | lt => rfl
  | gt => rfl

theorem verCmp_swap (a b : Ver) : (verCmp a b).swap = verCmp b a := by
  unfold verCmp
  rw [lexCmp_swap compCmp compCmp_swap, Nat.max_comm]

theorem verCmp_eq_iff_pad (a b : Ver) {n : Nat} (h : max a.length b.length ≤ n) :
    verCmp a b = .eq ↔ padTo n a = padTo n b := by
  rw [← verCmp_pad a b h, lexCmp_eq_iff compCmp compCmp_eq_iff]

theorem verCmp_self (a : Ver) : verCmp a a = .eq := by
  rw [verCmp_eq_iff_pad a a (Nat.le_refl _)]

theorem verCmp_le_trans {a b c : Ver} (h₁ : verCmp a b ≠ .gt) (h₂ : verCmp b c ≠ .gt) :
    verCmp a c ≠ .gt := by
  set n := max (max a.length b.length) (max (max b.length c.length) (max a.length c.length)) with hn
  have hab : max a.length b.length ≤ n := by omega
  have hbc : max b.length c.length ≤ n := by omega
  have hac : max a.length c.length ≤ n := by omega
  rw [← verCmp_pad a b hab] at h₁
  rw [← verCmp_pad b c hbc] at h₂
  rw [← verCmp_pad a c hac]
  cases e₁ : lexCmp compCmp (padTo n a) (padTo n b) with
  | gt => exact absurd e₁ h₁
  | eq =>
    have : padTo n a = padTo n b := (lexCmp_eq_iff compCmp compCmp_eq_iff _ _).mp e₁
    rw [this]
    exact h₂
  | lt =>
    cases e₂ : lexCmp compCmp (padTo n b) (padTo n c) with
    | gt => exact absurd e₂ h₂
    | eq =>
      have : padTo n b = padTo n c := (lexCmp_eq_iff compCmp compCmp_eq_iff _ _).mp e₂
      rw [← this, e₁]
      simp
    | lt =>
      rw [lexCmp_lt_trans compCmp compCmp_eq_iff (fun _ _ _ => compCmp_lt_trans)
        _ _ _ e₁ e₂]
      simp

theorem verCmp_lt_trans {a b c : Ver} (h₁ : verCmp a b = .lt) (h₂ : verCmp b c = .lt) :
    verCmp a c = .lt := by
  set n := max (max a.length b.length) (max (max b.length c.length) (max a.length c.length)) with hn
  have hab : max a.length b.length ≤ n := by omega
  have hbc : max b.length c.length ≤ n := by omega
  have hac : max a.length c.length ≤ n := by omega
  rw [← verCmp_pad a b hab] at h₁
  rw [← verCmp_pad b c hbc] at h₂
  rw [← verCmp_pad a c hac]
  exact lexCmp_lt_trans compCmp compCmp_eq_iff (fun _ _ _ => compCmp_lt_trans) _ _ _ h₁ h₂

/-- Versions that compare equal are interchangeable on either side of a
comparison. -/
theorem verCmp_eq_subst {a b : Ver} (h : verCmp a b = .eq) (x : Ver) :
    verCmp x a = verCmp x b ∧ verCmp a x = verCmp b x := by
  set n := max (max a.length b.length) (max (max x.length a.length) (max x.length b.length)) with hn
  have hab : max a.length b.length ≤ n := by omega
  have hxa : max x.length a.length ≤ n := by omega
  have hxb : max x.length b.length ≤ n := by omega
  have hpad : padTo n a = padTo n b := (verCmp_eq_iff_pad a b hab).mp h
  constructor
  · rw [← verCmp_pad x a hxa, ← verCmp_pad x b hxb, hpad]
  · rw [← verCmp_pad a x (by omega : max a.length x.length ≤ n),
      ← verCmp_pad b x (by omega : max b.length x.length ≤ n), hpad]

/-! ### Parsing version strings -/

/-- Numeric value of a decimal digit character. -/
def digitVal (c : Char) : Nat := c.toNat - 48

/-- Split a character list into maximal digit/letter chunks, accumulating in
reverse; fails on a character that is neither a digit nor a letter. -/
def toChunksAux : List Char → List Chunk → Option (List Chunk)
  | [], acc => some acc.reverse
  | c :: cs, acc =>
    if c.isDigit then
      match acc with
      | Sum.inl n :: rest => toChunksAux cs (Sum.inl (n * 10 + digitVal c) :: rest)
      | _ => toChunksAux cs (Sum.inl (digitVal c) :: acc)
    else if c.isAlpha then
      match acc with
      | Sum.inr s :: rest => toChunksAux cs (Sum.inr (s ++ [c.toNat]) :: rest)
      | _ => toChunksAux cs (Sum.inr [c.toNat] :: acc)
    else none

/-- Split a character list on the `.` and `-` delimiters. -/
def splitComps : List Char → List (List Char)
  | [] => [[]]
  | c :: cs =>
    if c = '.' || c = '-' then [] :: splitComps cs
    else
      match splitComps cs with
      | [] => [[c]]
      | r :: rs => (c :: r) :: rs

/-- Modelled from the spec: `parseVersion(text) -> OrderedVersion` splits into
dot/dash-delimited components, classifies chunks numeric or alphabetic, and
fails (`MalformedVersion`, here `none`) on empty input or illegal characters. -/
def parseVersion (s : String) : Option Ver :=
  if s.data.isEmpty then none
  else (splitComps s.data).mapM fun p =>
    if p.isEmpty then none else toChunksAux p []

/-! ### Match specs

Modelled from the spec: `conda/models/match_spec.py` is not part of the
repository slice; §3 (MatchSpec data model, "an empty/unspecified field
matches any value"), §4.1 (`parseMatchSpec`, wildcard support, exact-value
extraction) and §4.3 (`match`) describe the predicate. -/

/-- Does the pattern `pat` start the list `s`? -/
def startsWith : List Char → List Char → Bool
  | [], _ => true
  | _ :: _, [] => false
  | a :: as, b :: bs => a == b && startsWith as bs

/-- Does the pattern `pat` occur contiguously anywhere inside `s`? -/
def containsSub (pat : List Char) : List Char → Bool
  | [] => startsWith pat []
  | b :: rest => startsWith pat (b :: rest) || containsSub pat rest

theorem startsWith_self : ∀ l : List Char, startsWith l l = true := by
  intro l
  induction l with
  | nil => rfl
  | cons a as ih => simp [startsWith, ih]

theorem containsSub_self (l : List Char) : containsSub l l = true := by
  cases l with
  | nil => rfl
  | cons b rest => simp [containsSub, startsWith_self]

theorem containsSub_cons {pat l : List Char} (h : containsSub pat l = true) (c : Char) :
    containsSub pat (c :: l) = true := by
  simp [containsSub, h]

/-- A constraint on a string-valued field: unconstrained, an exact literal, or
a `*pat*`-style wildcard requiring `pat` as a substring. -/
inductive StrC
  | any
  | exact (s : String)
  | hasSub (s : String)
deriving DecidableEq

/-- Does a string satisfy a string-field constraint?  An unconstrained field
matches any value. -/
def strMatches : StrC → String → Bool
  | .any, _ => true
  | .exact t, s => s == t
  | .hasSub t, s => containsSub t.data s.data

/-- Modelled from the spec: exact-value extraction returns the literal value
only if the field is constrained to a single exact value. -/
def strcExact : StrC → Option String
  | .exact s => some s
  | _ => none

/-- Textual rendering of a string constraint. -/
def strcText : StrC → String
  | .any => "*"
  | .exact s => s
  | .hasSub s => "*" ++ s ++ "*"

/-- Comparison operator of a version constraint. -/
inductive VOp
  | oeq | olt | ole | ogt | oge
deriving DecidableEq

/-- Does an operator accept a comparison outcome (record version vs bound)? -/
def vopHolds : VOp → Ordering → Bool
  | .oeq, .eq => true
  | .olt, .lt => true
  | .ole, .lt => true
  | .ole, .eq => true
  | .ogt, .gt => true
  | .oge, .gt => true
  | .oge, .eq => true
  | _, _ => false

/-- A constraint on the version field: unconstrained, or an operator applied
to a bound. -/
inductive VerC
  | vany
  | vcmp (o : VOp) (v : Ver)
deriving DecidableEq

/-- Does a record version satisfy a version constraint (via the §4.1 ordered
comparison)? -/
def verCMatches : VerC → Ver → Bool
  | .vany, _ => true
  | .vcmp o v, rv => vopHolds o (verCmp rv v)

/-- Modelled from the spec: a MatchSpec is a predicate over record fields;
an empty/unspecified field matches any value. -/
structure MatchSpec where
  name : StrC
  version : VerC
  build : StrC
  buildNumber : Option Nat
  channel : StrC
  subdir : StrC
deriving DecidableEq

/-- A package record (§3 data model).  The version is stored in parsed,
ordered form. -/
structure PackageRecord where
  name : String
  version : Ver
  build : String
  buildNumber : Nat
  channel : String
  subdir : String
  size : Nat
  depends : List String
  constrains : List String
  fn : String
deriving DecidableEq

/-- The record fields a MatchSpec can constrain. -/
inductive Field
  | fName | fVersion | fBuild | fBuildNumber | fChannel | fSubdir
deriving DecidableEq

/-- Is the given field constrained (non-empty) in the spec? -/
def fieldConstrained (s : MatchSpec) : Field → Bool
  | .fName => s.name != .any
  | .fVersion => s.version != .vany
  | .fBuild => s.build != .any
  | .fBuildNumber => s.buildNumber.isSome
  | .fChannel => s.channel != .any
  | .fSubdir => s.subdir != .any

/-- Does the record satisfy the spec's constraint on the given field? -/
def fieldMatches (s : MatchSpec) (r : PackageRecord) : Field → Bool
  | .fName => strMatches s.name r.name
  | .fVersion => verCMatches s.version r.version
  | .fBuild => strMatches s.build r.build
  | .fBuildNumber =>
    match s.buildNumber with
    | none => true
    | some n => r.buildNumber == n
  | .fChannel => strMatches s.channel r.channel
  | .fSubdir => strMatches s.subdir r.subdir

/-- Modelled from the spec: `match(spec, record)` — every constrained field of
the spec must accept the corresponding record field. -/
def matchRec (s : MatchSpec) (r : PackageRecord) : Bool :=
  strMatches s.name r.name &&
  verCMatches s.version r.version &&
  strMatches s.build r.build &&
  (match s.buildNumber with
   | none => true
   | some n => r.buildNumber == n) &&
  strMatches s.channel r.channel &&
  strMatches s.subdir r.subdir

/-- Textual form of a spec (the `text_type(spec)` rendering). -/
def specText (s : MatchSpec) : String :=
  match strcExact s.channel with
  | some c => c ++ "::" ++ strcText s.name
  | none => strcText s.name

/-- Semantic characterisation of exact-value extraction: the extraction
returns `some v` exactly when `v` is the unique string satisfying the
constraint. -/
theorem strcExact_iff_unique (c : StrC) (v : String) :
    strcExact c = some v ↔
      (strMatches c v = true ∧ ∀ w, strMatches c w = true → w = v) := by
  cases c with
  | exact t =>
    simp only [strcExact, strMatches, Option.some.injEq]
    constructor
    · intro h
      subst h
      exact ⟨by simp, fun w hw => by simpa using hw⟩
    · intro ⟨hv, _⟩
      exact (by simpa using hv : v = t).symm
  | any =>
    simp only [strcExact, strMatches]
    constructor
    · intro h; cases h
    · intro ⟨_, huniq⟩
      have h1 := huniq (v ++ "a") trivial
      have h2 := congrArg String.length h1
      have h3 : ("a" : String).length = 1 := rfl
      rw [String.length_append, h3] at h2
      omega
  | hasSub t =>
    simp only [strcExact, strMatches]
    constructor
    · intro h; cases h
    · intro ⟨_, huniq⟩
      have m1 : containsSub t.data t.data = true := containsSub_self t.data
      have m2 : containsSub t.data ('!' :: t.data) = true := containsSub_cons m1 '!'
      have e1 : t = v := huniq t m1
      have e2 : ⟨'!' :: t.data⟩ = v := huniq ⟨'!' :: t.data⟩ m2
      have : t.data = '!' :: t.data := by
        conv_lhs => rw [e1, ← e2]
      have hlen := congrArg List.length this
      simp at hlen

/-! ### The `conda search` command (from `src/conda/cli/main_search.py`) -/

/-- Character codes of a string, for ordering. -/
def charCodes (s : String) : List Nat := s.data.map Char.toNat

/-- Three-way lexicographic string comparison by character code. -/
def strCmp (a b : String) : Ordering := lexCmp natCmp (charCodes a) (charCodes b)

theorem strCmp_swap (a b : String) : (strCmp a b).swap = strCmp b a :=
  lexCmp_swap natCmp natCmp_swap _ _

theorem strCmp_eq_codes (a b : String) (h : strCmp a b = .eq) :
    charCodes a = charCodes b :=
  (lexCmp_eq_iff natCmp natCmp_eq_iff _ _).mp h

theorem strCmp_lt_trans {a b c : String} (h₁ : strCmp a b = .lt)
    (h₂ : strCmp b c = .lt) : strCmp a c = .lt :=
  lexCmp_lt_trans natCmp natCmp_eq_iff (fun _ _ _ => natCmp_lt_trans) _ _ _ h₁ h₂

theorem strCmp_subst {a b : String} (h : strCmp a b = .eq) (x : String) :
    strCmp x a = strCmp x b ∧ strCmp a x = strCmp b x := by
  have hc := strCmp_eq_codes a b h
  constructor <;> (unfold strCmp; rw [hc])

theorem strCmp_le_trans {a b c : String} (h₁ : strCmp a b ≠ .gt)
    (h₂ : strCmp b c ≠ .gt) : strCmp a c ≠ .gt := by
  cases e₁ : strCmp a b with
  | gt => exact absurd e₁ h₁
  | eq => rw [(strCmp_subst e₁ c).2]; exact h₂
  | lt =>
    cases e₂ : strCmp b c with
    | gt => exact absurd e₂ h₂
    | eq => rw [← (strCmp_subst e₂ a).1, e₁]; simp
    | lt => rw [strCmp_lt_trans e₁ e₂]; simp

/-- Sequential (lexicographic) combination of comparison outcomes. -/
def ordThen (o₁ o₂ : Ordering) : Ordering :=
  match o₁ with
  | .eq => o₂
  | o => o

theorem ordThen_ne_gt {o₁ o₂ : Ordering} :
    ordThen o₁ o₂ ≠ .gt ↔ o₁ = .lt ∨ (o₁ = .eq ∧ o₂ ≠ .gt) := by
  cases o₁ <;> simp [ordThen]

theorem ordThen_swap (o₁ o₂ : Ordering) :
    (ordThen o₁ o₂).swap = ordThen o₁.swap o₂.swap := by
  cases o₁ <;> rfl

/-- The sort key of `main_search.execute` line 161:
`(rec.name, VersionOrder(rec.version), rec.build)`, compared
lexicographically as Python's `sorted` does for tuples. -/
def recKeyCmp (a b : PackageRecord) : Ordering :=
  ordThen (strCmp a.name b.name)
    (ordThen (verCmp a.version b.version) (strCmp a.build b.build))

/-- The non-strict order on records induced by the line-161 sort key. -/
def recLE (a b : PackageRecord) : Prop := recKeyCmp a b ≠ .gt

instance : DecidableRel recLE := fun a b =>
  inferInstanceAs (Decidable (recKeyCmp a b ≠ .gt))

theorem recKeyCmp_swap (a b : PackageRecord) : (recKeyCmp a b).swap = recKeyCmp b a := by
  unfold recKeyCmp
  rw [ordThen_swap, ordThen_swap, strCmp_swap, verCmp_swap, strCmp_swap]

theorem recKeyCmp_self (a : PackageRecord) : recKeyCmp a a = .eq := by
  unfold recKeyCmp
  have h1 : strCmp a.name a.name = .eq :=
    (lexCmp_eq_iff natCmp natCmp_eq_iff _ _).mpr rfl
  have h2 : strCmp a.build a.build = .eq :=
    (lexCmp_eq_iff natCmp natCmp_eq_iff _ _).mpr rfl
  rw [h1, verCmp_self, h2]
  rfl

theorem recKeyCmp_le_trans {a b c : PackageRecord} (h₁ : recKeyCmp a b ≠ .gt)
    (h₂ : recKeyCmp b c ≠ .gt) : recKeyCmp a c ≠ .gt := by
  unfold recKeyCmp at *
  rw [ordThen_ne_gt] at h₁ h₂ ⊢
  rcases h₁ with h₁ | ⟨h₁e, h₁'⟩
  · rcases h₂ with h₂ | ⟨h₂e, h₂'⟩
    · exact Or.inl (strCmp_lt_trans h₁ h₂)
    · left; rw [← (strCmp_subst h₂e a.name).1]; exact h₁
  · rcases h₂ with h₂ | ⟨h₂e, h₂'⟩
    · left; rw [(strCmp_subst h₁e c.name).2]; exact h₂
    · right
      refine ⟨by rw [(strCmp_subst h₁e c.name).2]; exact h₂e, ?_⟩
      rw [ordThen_ne_gt] at h₁' h₂' ⊢
      rcases h₁' with h₁' | ⟨h₁e', h₁''⟩
      · rcases h₂' with h₂' | ⟨h₂e', h₂''⟩
        · exact Or.inl (verCmp_lt_trans h₁' h₂')
        · left; rw [← (verCmp_eq_subst h₂e' a.version).1]; exact h₁'
      · rcases h₂' with h₂' | ⟨h₂e', h₂''⟩
        · left; rw [(verCmp_eq_subst h₁e' c.version).2]; exact h₂'
        · right
          exact ⟨by rw [(verCmp_eq_subst h₁e' c.version).2]; exact h₂e',
            strCmp_le_trans h₁'' h₂''⟩

theorem recKeyCmp_antisymm {a b : PackageRecord} (h₁ : recKeyCmp a b ≠ .gt)
    (h₂ : recKeyCmp b a ≠ .gt) : recKeyCmp a b = .eq := by
  cases e : recKeyCmp a b with
  | eq => rfl
  | gt => exact absurd e h₁
  | lt =>
    have : recKeyCmp b a = .gt := by rw [← recKeyCmp_swap, e]; rfl
    exact absurd this h₂

instance : IsTrans PackageRecord recLE := ⟨fun _ _ _ => recKeyCmp_le_trans⟩

instance : IsTotal PackageRecord recLE := by
  constructor
  intro a b
  cases e : recKeyCmp a b with
  | lt => exact Or.inl (by rw [recLE, e]; simp)
  | eq => exact Or.inl (by rw [recLE, e]; simp)
  | gt =>
    right
    rw [recLE, ← recKeyCmp_swap, e]
    simp [Ordering.swap]

/-- Two sorted permutations of each other are equal provided the sort key is
injective on their members (no two distinct members tie on the key). -/
theorem sorted_perm_key_inj_eq :
    ∀ (l₁ l₂ : List PackageRecord), l₁.Sorted recLE → l₂.Sorted recLE → l₁.Perm l₂ →
      (∀ a ∈ l₁, ∀ b ∈ l₁, recKeyCmp a b = .eq → a = b) → l₁ = l₂ := by
  intro l₁
  induction l₁ with
  | nil =>
    intro l₂ _ _ hp _
    exact hp.nil_eq
  | cons x xs ih =>
    intro l₂ hs₁ hs₂ hp hinj
    cases l₂ with
    | nil => simp [hp.eq_nil] at *
    | cons y ys =>
      have hxy : x = y := by
        by_cases hble : x = y
        · exact hble
        · have hy₁ : y ∈ x :: xs := hp.symm.subset (List.mem_cons_self y ys)
          have hx₂ : x ∈ y :: ys := hp.subset (List.mem_cons_self x xs)
          have hyxs : y ∈ xs := by
            cases List.mem_cons.mp hy₁ with
            | inl h => exact absurd h.symm hble
            | inr h => exact h
          have hxys : x ∈ ys := by
            cases List.mem_cons.mp hx₂ with
            | inl h => exact absurd h hble
            | inr h => exact h
          have h₁ : recLE x y := (List.pairwise_cons.mp hs₁).1 y hyxs
          have h₂ : recLE y x := (List.pairwise_cons.mp hs₂).1 x hxys
          exact hinj x (List.mem_cons_self x xs) y hy₁ (recKeyCmp_antisymm h₁ h₂)
      subst hxy
      have hp' : xs.Perm ys := hp.cons_inv
      have := ih ys hs₁.of_cons hs₂.of_cons hp'
        (fun a ha b hb => hinj a (List.mem_cons_of_mem x ha) b (List.mem_cons_of_mem x hb))
      rw [this]

/-! ### Channel priority (modelled) and the search pipeline -/

/-- Helper: keep the first occurrence of each element, tracking already-seen
elements. -/
def dedupFirstAux : List String → List String → List String
  | [], _ => []
  | u :: us, seen =>
    if u ∈ seen then dedupFirstAux us seen else u :: dedupFirstAux us (u :: seen)

/-- Modelled from the spec: `prioritize(channelUrls)` assigns rank by input
order and collapses duplicate URLs to the first occurrence; this is the URL
list of the resulting `ChannelPriorityMap` (what `tuple(channel_priority_map)`
yields in `main_search.execute` line 170). -/
def channelPriorityUrls (urls : List String) : List String := dedupFirstAux urls []

/-- The arguments of `conda search` that `execute` consults. -/
structure SearchArgs where
  matchSpec : MatchSpec
  platform : Option String
  overrideChannels : Bool
  useLocal : Bool
  useIndexCache : Bool
  unknown : Bool
deriving DecidableEq

/-- The slice of the global `context` object that `execute` consults. -/
structure Ctx where
  channels : List String
  subdir : String
deriving DecidableEq

/-- The argument record of the `get_index` call in `main_search.execute`
lines 154-158. -/
structure GetIndexArgs where
  channelUrls : List String
  prepend : Bool
  platform : Option String
  useLocal : Bool
  useCache : Bool
  unknown : Bool
deriving DecidableEq

/-- The value of `args.unknown` after the two platform blocks of
`main_search.execute` (lines 133-141 and 145-147): a non-empty platform
different from `context.subdir` forces it to `False`.  The first block
consults the spec's exact `subdir` constraint, the second only
`args.platform`. -/
def unknownAfterBlocks (args : SearchArgs) (ctx : Ctx) : Bool :=
  let platform1 :=
    match strcExact args.matchSpec.subdir with
    | some sd => sd
    | none => (args.platform).getD ""
  let u1 := if platform1 ≠ "" && platform1 != ctx.subdir then false else args.unknown
  let platform2 := (args.platform).getD ""
  if platform2 ≠ "" && platform2 != ctx.subdir then false else u1

/-- The channel URLs handed to `get_index` (lines 152-153):
`(spec_channel,) if spec_channel else context.channels`.  Python's truthiness
test makes both a missing exact value and the empty string fall back to
`context.channels`. -/
def searchChannelUrls (spec : MatchSpec) (ctx : Ctx) : List String :=
  match strcExact spec.channel with
  | some c => if c = "" then ctx.channels else [c]
  | none => ctx.channels

/-- The full argument record of the `get_index` call in
`main_search.execute` (lines 151-158). -/
def getIndexCall (args : SearchArgs) (ctx : Ctx) : GetIndexArgs :=
  { channelUrls := searchChannelUrls args.matchSpec ctx
    prepend := !args.overrideChannels
    platform := args.platform
    useLocal := args.useLocal
    useCache := args.useIndexCache
    unknown := unknownAfterBlocks args ctx }

/-- Failure raised by the search command. -/
inductive SearchErr
  | packagesNotFound (specs : List String) (channels : List String)
deriving DecidableEq

/-- `main_search.execute` lines 160-199 after the index is loaded: filter the
index records through `spec.match`, and either raise `PackagesNotFoundError`
carrying `(text_type(spec),)` and `tuple(channel_priority_map)` built from
`context.channels` (lines 163-172), or emit the matches sorted stably by the
line-161 key.  `indexRecords` is the enumeration order in which the loaded
index's values are iterated. -/
def executeSearch (args : SearchArgs) (ctx : Ctx) (indexRecords : List PackageRecord) :
    Except SearchErr (List PackageRecord) :=
  if (indexRecords.filter (fun r => matchRec args.matchSpec r)).isEmpty then
    .error (.packagesNotFound [specText args.matchSpec] (channelPriorityUrls ctx.channels))
  else
    .ok (List.insertionSort recLE
      (indexRecords.filter (fun r => matchRec args.matchSpec r)))

/-! ### `conda info` package dump (from `src/conda/cli/main_info.py`) -/

/-- `IGNORE_FIELDS` from `main_info.py` line 101. -/
def IGNORE_FIELDS : List String := ["files", "auth", "preferred_env", "priority"]

/-- `dump_record` from `main_info.py` lines 107-108: drop the ignored keys
from the record's dumped mapping and pass every other entry through. -/
def dump_record (pkg : List (String × String)) : List (String × String) :=
  pkg.filter (fun kv => !(IGNORE_FIELDS.contains kv.1))

/-- The JSON branch of `print_package_info` (lines 145-150): every displayed
record is `dump_record` of the resolver's record. -/
def print_package_info_json (packages : List (String × List (List (String × String)))) :
    List (String × List (List (String × String))) :=
  packages.map (fun pr => (pr.1, pr.2.map dump_record))

/-- The pretty branch (line 114 of `pretty_package`): the displayed record is
also `dump_record` of the resolver's record. -/
def pretty_package_record (pkg : List (String × String)) : List (String × String) :=
  dump_record pkg

theorem containsStr_iff (l : List String) (a : String) :
    l.contains a = true ↔ a ∈ l := by
  unfold List.contains
  exact List.elem_iff

theorem dump_record_cons (kv : String × String) (rest : List (String × String)) :
    dump_record (kv :: rest) =
      if IGNORE_FIELDS.contains kv.1 then dump_record rest
      else kv :: dump_record rest := by
  unfold dump_record
  rw [List.filter_cons]
  cases h : IGNORE_FIELDS.contains kv.1 <;> simp [h]

theorem dump_record_lookup_none :
    ∀ (pkg : List (String × String)) (k : String), k ∈ IGNORE_FIELDS →
      (dump_record pkg).lookup k = none := by
  intro pkg
  induction pkg with
  | nil => intro k _; rfl
  | cons kv rest ih =>
    intro k hk
    rw [dump_record_cons]
    by_cases ha : IGNORE_FIELDS.contains kv.1 = true
    · rw [if_pos ha]
      exact ih k hk
    · rw [if_neg ha]
      have hne : (k == kv.1) = false := by
        rw [beq_eq_false_iff_ne]
        intro h
        subst h
        exact ha ((containsStr_iff _ _).mpr hk)
      cases kv with
      | mk a v =>
        rw [List.lookup_cons]
        simp only at hne
        rw [hne]
        exact ih k hk

theorem dump_record_lookup_keep :
    ∀ (pkg : List (String × String)) (k : String), k ∉ IGNORE_FIELDS →
      (dump_record pkg).lookup k = pkg.lookup k := by
  intro pkg
  induction pkg with
  | nil => intro k _; rfl
  | cons kv rest ih =>
    intro k hk
    rw [dump_record_cons]
    by_cases ha : IGNORE_FIELDS.contains kv.1 = true
    · rw [if_pos ha]
      have hne : (k == kv.1) = false := by
        rw [beq_eq_false_iff_ne]
        intro h
        subst h
        exact hk ((containsStr_iff _ _).mp ha)
      cases kv with
      | mk a v =>
        rw [List.lookup_cons]
        simp only at hne
        rw [hne]
        exact ih k hk
    · rw [if_neg ha]
      cases kv with
      | mk a v =>
        rw [List.lookup_cons, List.lookup_cons]
        cases h : k == a with
        | true => rfl
        | false => exact ih k hk

/-! ### Resolver candidate preference (modelled from spec §4.4 step 4) -/

/-- Modelled from the spec: the resolver's preference comparison — lower
channel-priority rank first, then higher version (per §4.1), then higher
build number.  `.lt` means "strictly preferred". -/
def prefCmp (rank : String → Nat) (a b : PackageRecord) : Ordering :=
  ordThen (natCmp (rank a.channel) (rank b.channel))
    (ordThen (verCmp b.version a.version) (natCmp b.buildNumber a.buildNumber))

theorem ordThen_eq_lt {o₁ o₂ : Ordering} :
    ordThen o₁ o₂ = .lt ↔ o₁ = .lt ∨ (o₁ = .eq ∧ o₂ = .lt) := by
  cases o₁ <;> simp [ordThen]

theorem ordThen_eq_eq {o₁ o₂ : Ordering} :
    ordThen o₁ o₂ = .eq ↔ o₁ = .eq ∧ o₂ = .eq := by
  cases o₁ <;> simp [ordThen]

theorem prefCmp_swap (rank : String → Nat) (a b : PackageRecord) :
    (prefCmp rank a b).swap = prefCmp rank b a := by
  unfold prefCmp
  rw [ordThen_swap, ordThen_swap, natCmp_swap, verCmp_swap, natCmp_swap]

theorem prefCmp_self (rank : String → Nat) (a : PackageRecord) :
    prefCmp rank a a = .eq := by
  unfold prefCmp
  rw [natCmp_self, verCmp_self, natCmp_self]
  rfl

theorem natCmp_eq_subst {a b : Nat} (h : natCmp a b = .eq) (x : Nat) :
    natCmp x a = natCmp x b ∧ natCmp a x = natCmp b x := by
  rw [natCmp_eq_iff] at h
  subst h
  exact ⟨rfl, rfl⟩

theorem prefCmp_lt_trans {rank : String → Nat} {a b c : PackageRecord}
    (h₁ : prefCmp rank a b = .lt) (h₂ : prefCmp rank b c = .lt) :
    prefCmp rank a c = .lt := by
  unfold prefCmp at *
  rw [ordThen_eq_lt] at h₁ h₂ ⊢
  rcases h₁ with h₁ | ⟨h₁e, h₁'⟩
  · rcases h₂ with h₂ | ⟨h₂e, h₂'⟩
    · exact Or.inl (natCmp_lt_trans h₁ h₂)
    · left; rw [← (natCmp_eq_subst h₂e (rank a.channel)).1]; exact h₁
  · rcases h₂ with h₂ | ⟨h₂e, h₂'⟩
    · left; rw [(natCmp_eq_subst h₁e (rank c.channel)).2]; exact h₂
    · right
      refine ⟨by rw [(natCmp_eq_subst h₁e (rank c.channel)).2]; exact h₂e, ?_⟩
      rw [ordThen_eq_lt] at h₁' h₂' ⊢
      rcases h₁' with h₁' | ⟨h₁e', h₁''⟩
      · rcases h₂' with h₂' | ⟨h₂e', h₂''⟩
        · exact Or.inl (verCmp_lt_trans h₂' h₁')
        · left; rw [(verCmp_eq_subst h₂e' a.version).2]; exact h₁'
      · rcases h₂' with h₂' | ⟨h₂e', h₂''⟩
        · left; rw [← (verCmp_eq_subst h₁e' c.version).1]; exact h₂'
        · right
          refine ⟨by rw [← (verCmp_eq_subst h₁e' c.version).1]; exact h₂e', ?_⟩
          exact natCmp_lt_trans h₂'' h₁''

theorem prefCmp_eq_subst {rank : String → Nat} {a b : PackageRecord}
    (h : prefCmp rank a b = .eq) (x : PackageRecord) :
    prefCmp rank x a = prefCmp rank x b ∧ prefCmp rank a x = prefCmp rank b x := by
  unfold prefCmp at *
  rw [ordThen_eq_eq, ordThen_eq_eq] at h
  obtain ⟨h₁, h₂, h₃⟩ := h
  have hch : rank a.channel = rank b.channel := (natCmp_eq_iff _ _).mp h₁
  have hbn : b.buildNumber = a.buildNumber := (natCmp_eq_iff _ _).mp h₃
  have hv₂ : verCmp a.version b.version = .eq := by
    rw [← verCmp_swap] at h₂
    cases hv : verCmp a.version b.version <;> rw [hv] at h₂ <;> simp [Ordering.swap] at h₂ ⊢
  constructor
  · rw [hch, (verCmp_eq_subst hv₂ x.version).2, ← hbn]
  · rw [hch, (verCmp_eq_subst hv₂ x.version).1, ← hbn]

theorem prefCmp_incomp_eq {rank : String → Nat} {a b : PackageRecord}
    (h₁ : prefCmp rank a b ≠ .lt) (h₂ : prefCmp rank b a ≠ .lt) :
    prefCmp rank a b = .eq := by
  cases e : prefCmp rank a b with
  | eq => rfl
  | lt => exact absurd e h₁
  | gt =>
    have : prefCmp rank b a = .lt := by rw [← prefCmp_swap, e]; rfl
    exact absurd this h₂

/-- Modelled from the spec: scan the candidates in insertion order, replacing
the current choice only when a later candidate is strictly preferred. -/
def selectAux (rank : String → Nat) (b : PackageRecord) : List PackageRecord → PackageRecord
  | [] => b
  | r :: rs => if prefCmp rank r b = .lt then selectAux rank r rs else selectAux rank b rs

/-- Modelled from the spec: the candidate the resolver selects first from a
candidate list, `none` on an empty list. -/
def selectBest (rank : String → Nat) : List PackageRecord → Option PackageRecord
  | [] => none
  | r :: rs => some (selectAux rank r rs)

/-- `r` is unbeaten among `l`: no record of `l` is strictly preferred. -/
def unbeatenIn (rank : String → Nat) (l : List PackageRecord) (r : PackageRecord) : Bool :=
  l.all (fun m => !(prefCmp rank m r == .lt))

/-- The earliest record of `l` that no record of `l` strictly beats: the
preference order decides, and any remaining tie falls to insertion order. -/
def firstPreferred (rank : String → Nat) (l : List PackageRecord) : Option PackageRecord :=
  l.find? (unbeatenIn rank l)

theorem ordBeqFalse {a b : Ordering} : (a == b) = false ↔ a ≠ b := by
  cases a <;> cases b <;> decide

theorem find?_congr {p q : α → Bool} :
    ∀ l : List α, (∀ x ∈ l, p x = q x) → l.find? p = l.find? q := by
  intro l
  induction l with
  | nil => intro _; rfl
  | cons a as ih =>
    intro h
    have ha := h a (List.mem_cons_self a as)
    cases hp : p a with
    | true =>
      rw [List.find?_cons_of_pos _ hp, List.find?_cons_of_pos _ (ha ▸ hp)]
    | false =>
      rw [List.find?_cons_of_neg _ (by simp [hp]), List.find?_cons_of_neg _ (by simp [← ha, hp]),
        ih (fun x hx => h x (List.mem_cons_of_mem a hx))]

theorem unbeatenIn_cons (rank : String → Nat) (m : PackageRecord)
    (l : List PackageRecord) (x : PackageRecord) :
    unbeatenIn rank (m :: l) x = ((!(prefCmp rank m x == .lt)) && unbeatenIn rank l x) := rfl

theorem unbeatenIn_mem_false {rank : String → Nat} {l : List PackageRecord}
    {x k : PackageRecord} (hk : k ∈ l) (hbeat : prefCmp rank k x = .lt) :
    unbeatenIn rank l x = false := by
  rw [← Bool.not_eq_true]
  intro h
  rw [unbeatenIn, List.all_eq_true] at h
  have := h k hk
  rw [hbeat] at this
  exact absurd this (by decide)

theorem unbeatenIn_not_beaten {rank : String → Nat} {l : List PackageRecord}
    {x m : PackageRecord} (h : unbeatenIn rank l x = true) (hm : m ∈ l) :
    prefCmp rank m x ≠ .lt := by
  intro hc
  rw [unbeatenIn_mem_false hm hc] at h
  cases h

/-- The left-to-right scan selects exactly the first candidate that no other
candidate strictly beats. -/
theorem selectAux_find (rank : String → Nat) :
    ∀ (rs : List PackageRecord) (b : PackageRecord),
      (b :: rs).find? (unbeatenIn rank (b :: rs)) = some (selectAux rank b rs) := by
  intro rs
  induction rs with
  | nil =>
    intro b
    have hb : unbeatenIn rank [b] b = true := by
      rw [unbeatenIn_cons, prefCmp_self]
      rfl
    rw [List.find?_cons_of_pos _ hb]
    rfl
  | cons r rs' ih =>
    intro b
    by_cases hlt : prefCmp rank r b = .lt
    · have hsel : selectAux rank b (r :: rs') = selectAux rank r rs' := by
        rw [selectAux, if_pos hlt]
      rw [hsel]
      have hbF : unbeatenIn rank (b :: r :: rs') b = false :=
        unbeatenIn_mem_false (List.mem_cons_of_mem b (List.mem_cons_self r rs')) hlt
      rw [List.find?_cons_of_neg _ (by simp [hbF])]
      have hcong : ∀ x ∈ r :: rs',
          unbeatenIn rank (b :: r :: rs') x = unbeatenIn rank (r :: rs') x := by
        intro x hx
        rw [unbeatenIn_cons rank b (r :: rs') x]
        cases hsx : unbeatenIn rank (r :: rs') x with
        | false => rw [Bool.and_false]
        | true =>
          have hrx : prefCmp rank r x ≠ .lt :=
            unbeatenIn_not_beaten hsx (List.mem_cons_self r rs')
          have hbx : prefCmp rank b x ≠ .lt := fun hc => hrx (prefCmp_lt_trans hlt hc)
          rw [ordBeqFalse.mpr hbx]
          rfl
      rw [find?_congr (r :: rs') hcong]
      exact ih r
    · have hsel : selectAux rank b (r :: rs') = selectAux rank b rs' := by
        rw [selectAux, if_neg hlt]
      rw [hsel]
      cases hub : unbeatenIn rank (b :: rs') b with
      | true =>
        have hub' := hub
        rw [unbeatenIn_cons rank b rs' b] at hub'
        rw [Bool.and_eq_true] at hub'
        obtain ⟨hA, hU⟩ := hub'
        have hbig : unbeatenIn rank (b :: r :: rs') b = true := by
          rw [unbeatenIn_cons rank b (r :: rs') b, unbeatenIn_cons rank r rs' b,
            hA, hU, ordBeqFalse.mpr hlt]
          rfl
        rw [List.find?_cons_of_pos _ hbig]
        have h2 := ih b
        rw [List.find?_cons_of_pos _ hub] at h2
        exact h2
      | false =>
        have hA : (!(prefCmp rank b b == .lt)) = true := by
          rw [prefCmp_self]
          rfl
        have hU : unbeatenIn rank rs' b = false := by
          have h' := hub
          rw [unbeatenIn_cons rank b rs' b, hA, Bool.true_and] at h'
          exact h'
        have hex : ∃ k ∈ rs', prefCmp rank k b = .lt := by
          by_contra hno
          push_neg at hno
          have hT : unbeatenIn rank rs' b = true := by
            rw [unbeatenIn, List.all_eq_true]
            intro m hm
            rw [ordBeqFalse.mpr (hno m hm)]
            rfl
          rw [hT] at hU
          cases hU
        obtain ⟨k, hk, hkb⟩ := hex
        have hkr : prefCmp rank k r = .lt := by
          cases ebr : prefCmp rank b r with
          | lt => exact prefCmp_lt_trans hkb ebr
          | eq => rw [← (prefCmp_eq_subst ebr k).1]; exact hkb
          | gt =>
            have hrb : prefCmp rank r b = .lt := by rw [← prefCmp_swap, ebr]; rfl
            exact absurd hrb hlt
        have hbigb : unbeatenIn rank (b :: r :: rs') b = false :=
          unbeatenIn_mem_false (by simp [hk]) hkb
        have hbigr : unbeatenIn rank (b :: r :: rs') r = false :=
          unbeatenIn_mem_false (by simp [hk]) hkr
        rw [List.find?_cons_of_neg _ (by simp [hbigb]),
          List.find?_cons_of_neg _ (by simp [hbigr])]
        have hcong : ∀ x ∈ rs',
            unbeatenIn rank (b :: r :: rs') x = unbeatenIn rank (b :: rs') x := by
          intro x hx
          rw [unbeatenIn_cons rank b (r :: rs') x, unbeatenIn_cons rank r rs' x,
            unbeatenIn_cons rank b rs' x]
          cases hA2 : (prefCmp rank b x == .lt) with
          | true => rfl
          | false =>
            cases hU2 : unbeatenIn rank rs' x with
            | false => simp
            | true =>
              have hbx : prefCmp rank b x ≠ .lt := ordBeqFalse.mp hA2
              have hR : prefCmp rank r x ≠ .lt := by
                intro hc
                cases ebr : prefCmp rank b r with
                | lt => exact hbx (prefCmp_lt_trans ebr hc)
                | eq => exact hbx (by rw [(prefCmp_eq_subst ebr x).2]; exact hc)
                | gt =>
                  have hrb : prefCmp rank r b = .lt := by rw [← prefCmp_swap, ebr]; rfl
                  exact hlt hrb
              rw [ordBeqFalse.mpr hR]
              rfl
        rw [find?_congr rs' hcong]
        have h2 := ih b
        rw [List.find?_cons_of_neg _ (by simp [hub])] at h2
        exact h2

/-- The resolver's candidate choice equals "first unbeaten in insertion
order". -/
theorem selectBest_eq_firstPreferred (rank : String → Nat) (l : List PackageRecord) :
    selectBest rank l = firstPreferred rank l := by
  cases l with
  | nil => rfl
  | cons b rs =>
    rw [selectBest, firstPreferred, selectAux_find]

/-! ### Root-level resolution (modelled from spec §4.4) -/

/-- Failures of the resolution core (§7 error taxonomy, the two fatal kinds). -/
inductive ResolveErr
  | packagesNotFound (specs : List String) (channels : List String)
  | unsatisfiable (specs : List String)
deriving DecidableEq

/-- Modelled from the spec: `selectCandidates(spec, index)` — all records of
the index that the spec matches (§4.3). -/
def candidatesOf (index : List PackageRecord) (s : MatchSpec) : List PackageRecord :=
  index.filter (fun r => matchRec s r)

/-- Is a chosen record list consistent: any two records sharing a package
name are the same record? -/
def consistentAssign (recs : List PackageRecord) : Bool :=
  recs.all (fun a => recs.all (fun b => !(a.name == b.name) || (a == b)))

/-- All ways of choosing one element from each list. -/
def listProd : List (List α) → List (List α)
  | [] => [[]]
  | xs :: rest => (xs.map (fun x => (listProd rest).map (fun t => x :: t))).flatten

/-- Modelled from the spec: root-level resolution (§4.4).  Step 2: the first
root spec with zero candidates fails immediately with `PackagesNotFoundError`
naming that spec and the channels searched.  Otherwise search the joint
choices of one candidate per root for a consistent assignment; if none
exists, fail with the consolidated `UnsatisfiableError` listing the root
specs that could not be jointly satisfied. -/
def resolveRoots (index : List PackageRecord) (channels : List String)
    (roots : List MatchSpec) : Except ResolveErr (List PackageRecord) :=
  match roots.find? (fun s => (candidatesOf index s).isEmpty) with
  | some s => .error (.packagesNotFound [specText s] channels)
  | none =>
    match (listProd (roots.map (candidatesOf index))).find? consistentAssign with
    | some recs => .ok recs
    | none => .error (.unsatisfiable (roots.map specText))

/-! ### Persisted channel cache (modelled from spec §6) -/

/-- A value of the persisted channel-cache format: strings, naturals and
nested lists. -/
inductive CVal
  | s (v : String)
  | n (v : Nat)
  | l (vs : List CVal)

/-- Decode a list of cache values element-wise; any failure fails the list. -/
def deListWith (f : CVal → Option α) : List CVal → Option (List α)
  | [] => some []
  | v :: vs =>
    match f v, deListWith f vs with
    | some a, some as => some (a :: as)
    | _, _ => none

theorem deListWith_map {f : CVal → Option α} {g : α → CVal} :
    ∀ l : List α, (∀ x ∈ l, f (g x) = some x) → deListWith f (l.map g) = some l := by
  intro l
  induction l with
  | nil => intro _; rfl
  | cons x xs ih =>
    intro h
    rw [List.map_cons, deListWith, h x (List.mem_cons_self x xs),
      ih (fun y hy => h y (List.mem_cons_of_mem x hy))]

/-- Encode a chunk. -/
def serChunk : Chunk → CVal
  | Sum.inl n => .l [.n 0, .n n]
  | Sum.inr ns => .l [.n 1, .l (ns.map .n)]

/-- Decode a natural. -/
def deNat : CVal → Option Nat
  | .n k => some k
  | _ => none

/-- Decode a string. -/
def deStr : CVal → Option String
  | .s v => some v
  | _ => none

/-- Decode a chunk; anything malformed is rejected. -/
def deChunk : CVal → Option Chunk
  | .l [.n 0, .n k] => some (Sum.inl k)
  | .l [.n 1, .l vs] => (deListWith deNat vs).map Sum.inr
  | _ => none

/-- Encode a parsed version. -/
def serVer (v : Ver) : CVal := .l (v.map (fun c => .l (c.map serChunk)))

/-- Decode a parsed version. -/
def deVer : CVal → Option Ver
  | .l cs =>
    deListWith
      (fun cv =>
        match cv with
        | .l ks => deListWith deChunk ks
        | _ => none) cs
  | _ => none

/-- Modelled from the spec: serialize a `PackageRecord` to the persisted
channel-cache format (§6, one structure per record). -/
def serializeRecord (r : PackageRecord) : CVal :=
  .l [.s r.name, serVer r.version, .s r.build, .n r.buildNumber, .s r.channel,
      .s r.subdir, .n r.size, .l (r.depends.map .s), .l (r.constrains.map .s),
      .s r.fn]

/-- Modelled from the spec: reload a `PackageRecord` from the persisted
cache format; corruption (any shape mismatch) yields `none`, a cache miss. -/
def deserializeRecord : CVal → Option PackageRecord
  | .l [.s name, ver, .s build, .n bn, .s channel, .s subdir, .n size,
        .l deps, .l cons, .s fn] =>
    match deVer ver, deListWith deStr deps, deListWith deStr cons with
    | some v, some ds, some cs =>
      some ⟨name, v, build, bn, channel, subdir, size, ds, cs, fn⟩
    | _, _, _ => none
  | _ => none

theorem deChunk_serChunk (c : Chunk) : deChunk (serChunk c) = some c := by
  cases c with
  | inl n => rfl
  | inr ns =>
    rw [serChunk, deChunk, deListWith_map ns (fun x _ => rfl)]
    rfl

theorem deVer_serVer (v : Ver) : deVer (serVer v) = some v := by
  rw [serVer, deVer]
  exact deListWith_map v (fun c _ => by
    show deListWith deChunk (List.map serChunk c) = some c
    exact deListWith_map c (fun k _ => deChunk_serChunk k))

theorem deserializeRecord_serializeRecord (r : PackageRecord) :
    deserializeRecord (serializeRecord r) = some r := by
  cases r with
  | mk name version build bn channel subdir size deps cons fn =>
    show (match deVer (serVer version), deListWith deStr (deps.map .s),
        deListWith deStr (cons.map .s) with
      | some v, some ds, some cs =>
        some (⟨name, v, build, bn, channel, subdir, size, ds, cs, fn⟩ : PackageRecord)
      | _, _, _ => none) = some ⟨name, version, build, bn, channel, subdir, size, deps, cons, fn⟩
    rw [deVer_serVer, deListWith_map deps (fun x _ => rfl),
      deListWith_map cons (fun x _ => rfl)]

/-! ### Concrete fixtures used by the claim instances -/

/-- Fixture: search args requesting `conda-forge::ghost-package`. -/
def argsGhost : SearchArgs :=
  { matchSpec :=
      { name := .exact "ghost-package", version := .vany, build := .any,
        buildNumber := none, channel := .exact "conda-forge", subdir := .any }
    platform := none, overrideChannels := false, useLocal := false,
    useIndexCache := false, unknown := false }

/-- Fixture: search args with the wildcard spec `*scikit*` and `unknown`
enabled. -/
def argsStar : SearchArgs :=
  { matchSpec :=
      { name := .hasSub "scikit", version := .vany, build := .any,
        buildNumber := none, channel := .any, subdir := .any }
    platform := none, overrideChannels := false, useLocal := false,
    useIndexCache := false, unknown := true }

/-- Fixture: search args whose spec pins `channel=""` (the empty string). -/
def argsEmptyChan : SearchArgs :=
  { matchSpec :=
      { name := .exact "x", version := .vany, build := .any,
        buildNumber := none, channel := .exact "", subdir := .any }
    platform := none, overrideChannels := false, useLocal := false,
    useIndexCache := false, unknown := false }

/-- Fixture: search args naming the package `nose`. -/
def argsNose : SearchArgs :=
  { matchSpec :=
      { name := .exact "nose", version := .vany, build := .any,
        buildNumber := none, channel := .any, subdir := .any }
    platform := none, overrideChannels := false, useLocal := false,
    useIndexCache := false, unknown := false }

/-- Fixture: a context configured with the single channel `defaults`. -/
def ctxDefaults : Ctx := { channels := ["defaults"], subdir := "linux-64" }

/-- Fixture: a `nose 1.3.0 py33_0` record from `defaults`. -/
def recNose : PackageRecord :=
  { name := "nose", version := [[Sum.inl 1], [Sum.inl 3], [Sum.inl 0]]
    build := "py33_0", buildNumber := 0, channel := "defaults"
    subdir := "osx-64", size := 199, depends := ["python 3.3*"]
    constrains := [], fn := "nose-1.3.0-py33_0.tar.bz2" }

/-- Fixture: a `nose 1.4.0 py33_0` record from `defaults`. -/
def recNose14 : PackageRecord :=
  { name := "nose", version := [[Sum.inl 1], [Sum.inl 4], [Sum.inl 0]]
    build := "py33_0", buildNumber := 0, channel := "defaults"
    subdir := "osx-64", size := 200, depends := []
    constrains := [], fn := "nose-1.4.0-py33_0.tar.bz2" }

/-- Fixture: a record tying `recNose` on name, version and build but coming
from a different channel. -/
def recNoseForge : PackageRecord :=
  { name := "nose", version := [[Sum.inl 1], [Sum.inl 3], [Sum.inl 0]]
    build := "py33_0", buildNumber := 0, channel := "conda-forge"
    subdir := "osx-64", size := 199, depends := []
    constrains := [], fn := "nose-1.3.0-py33_0.conda" }

/-- Fixture: a channel rank preferring `defaults`. -/
def rankD : String → Nat := fun c => if c = "defaults" then 0 else 1

/-- Fixture: the record `a 1.5`. -/
def recA15 : PackageRecord :=
  { name := "a", version := [[Sum.inl 1], [Sum.inl 5]], build := "0"
    buildNumber := 0, channel := "defaults", subdir := "linux-64", size := 1
    depends := [], constrains := [], fn := "a-1.5-0.tar.bz2" }

/-- Fixture: the record `a 1.6`. -/
def recA16 : PackageRecord :=
  { name := "a", version := [[Sum.inl 1], [Sum.inl 6]], build := "0"
    buildNumber := 0, channel := "defaults", subdir := "linux-64", size := 1
    depends := [], constrains := [], fn := "a-1.6-0.tar.bz2" }

/-- Fixture: the record `a 1.2`. -/
def recA12 : PackageRecord :=
  { name := "a", version := [[Sum.inl 1], [Sum.inl 2]], build := "0"
    buildNumber := 0, channel := "defaults", subdir := "linux-64", size := 1
    depends := [], constrains := [], fn := "a-1.2-0.tar.bz2" }

/-- Fixture: the spec `a>=2.0`. -/
def specAge2 : MatchSpec :=
  { name := .exact "a", version := .vcmp .oge [[Sum.inl 2], [Sum.inl 0]]
    build := .any, buildNumber := none, channel := .any, subdir := .any }

/-- Fixture: the spec `a<1.0`. -/
def specAlt1 : MatchSpec :=
  { name := .exact "a", version := .vcmp .olt [[Sum.inl 1], [Sum.inl 0]]
    build := .any, buildNumber := none, channel := .any, subdir := .any }

/-- Fixture: the spec `a>=1.5`. -/
def specAge15 : MatchSpec :=
  { name := .exact "a", version := .vcmp .oge [[Sum.inl 1], [Sum.inl 5]]
    build := .any, buildNumber := none, channel := .any, subdir := .any }

/-- Fixture: the spec `a<1.3`. -/
def specAlt13 : MatchSpec :=
  { name := .exact "a", version := .vcmp .olt [[Sum.inl 1], [Sum.inl 3]]
    build := .any, buildNumber := none, channel := .any, subdir := .any }

/-! ### Claim theorems -/

/-- C1, counterexample: with a spec that pins `channel=conda-forge`, the
index is searched in `conda-forge` only (lines 152-153 of
`main_search.py`), yet the `PackagesNotFoundError` raised on an empty
result carries the channel list derived from `context.channels`
(lines 163-172) — not the searched list. -/
theorem search_error_channels_not_searched :
    (getIndexCall argsGhost ctxDefaults).channelUrls = ["conda-forge"] ∧
    executeSearch argsGhost ctxDefaults [] =
      .error (.packagesNotFound ["conda-forge::ghost-package"] ["defaults"]) ∧
    ((["defaults"] : List String) == ["conda-forge"]) = false := by
  refine ⟨rfl, ?_, by decide⟩
  rfl

/-- C1 (amended): if no record of the loaded index satisfies the spec, the
search raises `PackagesNotFoundError` immediately — no result is produced —
carrying the textual form of the spec and the channel-priority URL list
derived from the configured `context.channels` (which coincides with the
searched channels only when the spec does not pin a channel). -/
theorem search_notFound_raises (args : SearchArgs) (ctx : Ctx)
    (index : List PackageRecord)
    (h : ∀ r ∈ index, matchRec args.matchSpec r = false) :
    executeSearch args ctx index =
      .error (.packagesNotFound [specText args.matchSpec]
        (channelPriorityUrls ctx.channels)) := by
  have hfil : index.filter (fun r => matchRec args.matchSpec r) = [] :=
    List.filter_eq_nil_iff.mpr (by intro a ha; simp [h a ha])
  unfold executeSearch
  rw [hfil]
  rfl

theorem search_notFound_raises_witness :
    executeSearch argsGhost ctxDefaults [recNose] =
      .error (.packagesNotFound [specText argsGhost.matchSpec]
        (channelPriorityUrls ctxDefaults.channels)) :=
  search_notFound_raises argsGhost ctxDefaults [recNose] (by decide)

/-- C2, counterexample: the constraint `channel=""` pins the channel field
to the single exact value `""` (`strcExact` returns it; by
`strcExact_iff_unique` the empty string is then the unique satisfier), yet
the `get_index` call receives the configured channel list, because the
`if spec_channel` truthiness test of line 153 treats the empty string as no
channel. -/
theorem search_channel_empty_pin_ignored :
    strcExact argsEmptyChan.matchSpec.channel = some "" ∧
    (getIndexCall argsEmptyChan ctxDefaults).channelUrls = ctxDefaults.channels ∧
    ((ctxDefaults.channels == [""]) = false) := by
  refine ⟨rfl, rfl, by decide⟩

/-- C2 (amended): if the search spec constrains the channel field to a
single exact non-empty value (semantically: a unique string satisfies the
constraint, and it is not `""`), the index is loaded from exactly that one
channel; otherwise — no constraint, a non-unique constraint, or the exact
value `""`, which line 153's truthiness test treats as no channel — it is
loaded from the configured channel list. -/
theorem search_channel_selection (args : SearchArgs) (ctx : Ctx) :
    (∀ v, v ≠ "" →
      (strMatches args.matchSpec.channel v = true ∧
        ∀ w, strMatches args.matchSpec.channel w = true → w = v) →
      (getIndexCall args ctx).channelUrls = [v]) ∧
    ((∀ v, ¬(v ≠ "" ∧ strMatches args.matchSpec.channel v = true ∧
        ∀ w, strMatches args.matchSpec.channel w = true → w = v)) →
      (getIndexCall args ctx).channelUrls = ctx.channels) := by
  constructor
  · intro v hv huniq
    have he : strcExact args.matchSpec.channel = some v :=
      (strcExact_iff_unique _ v).mpr huniq
    show searchChannelUrls args.matchSpec ctx = [v]
    rw [searchChannelUrls, he]
    show (if v = "" then ctx.channels else [v]) = [v]
    rw [if_neg hv]
  · intro hno
    show searchChannelUrls args.matchSpec ctx = ctx.channels
    cases hc : strcExact args.matchSpec.channel with
    | none => rw [searchChannelUrls, hc]
    | some c =>
      have hcu := (strcExact_iff_unique _ c).mp hc
      by_cases hce : c = ""
      · rw [searchChannelUrls, hc]
        show (if c = "" then ctx.channels else [c]) = ctx.channels
        rw [if_pos hce]
      · exact absurd ⟨hce, hcu.1, hcu.2⟩ (hno c)

theorem search_channel_selection_witness :
    (getIndexCall argsGhost ctxDefaults).channelUrls = ["conda-forge"] ∧
    (getIndexCall argsStar ctxDefaults).channelUrls = ctxDefaults.channels ∧
    (getIndexCall argsEmptyChan ctxDefaults).channelUrls = ctxDefaults.channels := by
  refine ⟨?_, ?_, ?_⟩
  · exact (search_channel_selection argsGhost ctxDefaults).1 "conda-forge"
      (by decide) ⟨by decide, fun w hw => eq_of_beq hw⟩
  · exact (search_channel_selection argsStar ctxDefaults).2
      (fun v hv => absurd ((hv.2.2 "a" rfl).trans (hv.2.2 "b" rfl).symm) (by decide))
  · exact (search_channel_selection argsEmptyChan ctxDefaults).2
      (fun v hv => hv.1 (eq_of_beq hv.2.1))

/-- C3, counterexample: two records tying on the (name, version, build) sort
key but distinct (different channels) appear in the output in whichever
order the unordered match set is enumerated — the two runs disagree. -/
theorem search_order_depends_on_iteration :
    List.Perm [recNose, recNoseForge] [recNoseForge, recNose] ∧
    ((recNose == recNoseForge) = false) ∧
    executeSearch argsNose ctxDefaults [recNose, recNoseForge] =
      .ok [recNose, recNoseForge] ∧
    executeSearch argsNose ctxDefaults [recNoseForge, recNose] =
      .ok [recNoseForge, recNose] := by
  refine ⟨List.Perm.swap recNoseForge recNose [], by decide, ?_, ?_⟩ <;> rfl

/-- C3 (amended): two runs of the search over any two enumerations of the
same index produce identical output provided no two distinct records
matched by the spec tie on the (name, version, build) sort key; when such
ties exist among matched records their relative order follows the unordered
set-iteration order. -/
theorem search_two_run_deterministic (args : SearchArgs) (ctx : Ctx)
    (enum1 enum2 : List PackageRecord)
    (hperm : enum1.Perm enum2)
    (hinj : ∀ a ∈ enum1, ∀ b ∈ enum1,
      matchRec args.matchSpec a = true → matchRec args.matchSpec b = true →
      recKeyCmp a b = .eq → a = b) :
    executeSearch args ctx enum1 = executeSearch args ctx enum2 := by
  have hfp : (enum1.filter (fun r => matchRec args.matchSpec r)).Perm
      (enum2.filter (fun r => matchRec args.matchSpec r)) := hperm.filter _
  unfold executeSearch
  cases hemp : (enum1.filter (fun r => matchRec args.matchSpec r)).isEmpty with
  | true =>
    have h1 : enum1.filter (fun r => matchRec args.matchSpec r) = [] :=
      List.isEmpty_iff.mp hemp
    have h2 : enum2.filter (fun r => matchRec args.matchSpec r) = [] := by
      have hp2 := hfp
      rw [h1] at hp2
      exact hp2.nil_eq.symm
    rw [h1, h2]
    rfl
  | false =>
    have h2emp : (enum2.filter (fun r => matchRec args.matchSpec r)).isEmpty = false := by
      cases h2 : (enum2.filter (fun r => matchRec args.matchSpec r)).isEmpty with
      | false => rfl
      | true =>
        have h2' : enum2.filter (fun r => matchRec args.matchSpec r) = [] :=
          List.isEmpty_iff.mp h2
        have hp2 := hfp
        rw [h2'] at hp2
        rw [hp2.eq_nil] at hemp
        cases hemp
    rw [h2emp]
    rw [if_neg (by decide : ¬(false = true)), if_neg (by decide : ¬(false = true))]
    apply congrArg
    apply sorted_perm_key_inj_eq
    · exact List.sorted_insertionSort recLE _
    · exact List.sorted_insertionSort recLE _
    · exact (List.perm_insertionSort recLE _).trans
        (hfp.trans (List.perm_insertionSort recLE _).symm)
    · intro a ha b hb
      have ha' := List.mem_filter.mp ((List.perm_insertionSort recLE _).subset ha)
      have hb' := List.mem_filter.mp ((List.perm_insertionSort recLE _).subset hb)
      exact hinj a ha'.1 b hb'.1 ha'.2 hb'.2

theorem search_two_run_deterministic_witness :
    executeSearch argsNose ctxDefaults [recNose, recNose14] =
      executeSearch argsNose ctxDefaults [recNose14, recNose] :=
  search_two_run_deterministic argsNose ctxDefaults _ _
    (List.Perm.swap recNose14 recNose []) (by decide)

/-- C4: `match(spec, record)` returns true iff every constrained field of the
spec accepts the corresponding record field, and an empty/unspecified field
matches any value. -/
theorem match_iff_constrained_fields (s : MatchSpec) (r : PackageRecord) :
    (matchRec s r = true ↔
      ∀ f : Field, fieldConstrained s f = true → fieldMatches s r f = true) ∧
    (∀ f : Field, fieldConstrained s f = false → fieldMatches s r f = true) := by
  have hunc : ∀ f : Field, fieldConstrained s f = false → fieldMatches s r f = true := by
    intro f hf
    cases f with
    | fName =>
      have h : s.name = .any := by simpa [fieldConstrained] using hf
      show strMatches s.name r.name = true
      rw [h]
      rfl
    | fVersion =>
      have h : s.version = .vany := by simpa [fieldConstrained] using hf
      show verCMatches s.version r.version = true
      rw [h]
      rfl
    | fBuild =>
      have h : s.build = .any := by simpa [fieldConstrained] using hf
      show strMatches s.build r.build = true
      rw [h]
      rfl
    | fBuildNumber =>
      show (match s.buildNumber with
        | none => true
        | some n => r.buildNumber == n) = true
      cases hb : s.buildNumber with
      | none => rfl
      | some n =>
        have hs : fieldConstrained s .fBuildNumber = true := by
          show s.buildNumber.isSome = true
          rw [hb]
          rfl
        rw [hs] at hf
        cases hf
    | fChannel =>
      have h : s.channel = .any := by simpa [fieldConstrained] using hf
      show strMatches s.channel r.channel = true
      rw [h]
      rfl
    | fSubdir =>
      have h : s.subdir = .any := by simpa [fieldConstrained] using hf
      show strMatches s.subdir r.subdir = true
      rw [h]
      rfl
  refine ⟨⟨?_, ?_⟩, hunc⟩
  · intro hm f hf
    rw [matchRec] at hm
    simp only [Bool.and_eq_true] at hm
    obtain ⟨⟨⟨⟨⟨h1, h2⟩, h3⟩, h4⟩, h5⟩, h6⟩ := hm
    cases f with
    | fName => exact h1
    | fVersion => exact h2
    | fBuild => exact h3
    | fBuildNumber => exact h4
    | fChannel => exact h5
    | fSubdir => exact h6
  · intro hall
    have key : ∀ f : Field, fieldMatches s r f = true := by
      intro f
      by_cases hc : fieldConstrained s f = true
      · exact hall f hc
      · exact hunc f (by revert hc; cases fieldConstrained s f <;> simp)
    rw [matchRec]
    simp only [Bool.and_eq_true]
    exact ⟨⟨⟨⟨⟨key .fName, key .fVersion⟩, key .fBuild⟩, key .fBuildNumber⟩,
      key .fChannel⟩, key .fSubdir⟩

theorem match_iff_constrained_fields_witness :
    fieldMatches argsNose.matchSpec recNose Field.fName = true :=
  ((match_iff_constrained_fields argsNose.matchSpec recNose).1.mp (by decide))
    Field.fName (by decide)

/-- C5: parsed-version comparison is antisymmetric, transitive and total
under the implicit-zero padding rule; `"1.2.0"` compares greater than
`"1.1.9"` and `"1.2"` compares equal to `"1.2.0"`. -/
theorem version_order_total (a b c : Ver) :
    (verCmp a b ≠ .gt → verCmp b a ≠ .gt → verCmp a b = .eq) ∧
    (verCmp a b ≠ .gt → verCmp b c ≠ .gt → verCmp a c ≠ .gt) ∧
    (verCmp a b ≠ .gt ∨ verCmp b a ≠ .gt) ∧
    (∃ v w, parseVersion "1.2.0" = some v ∧ parseVersion "1.1.9" = some w ∧
      verCmp v w = .gt) ∧
    (∃ v w, parseVersion "1.2" = some v ∧ parseVersion "1.2.0" = some w ∧
      verCmp v w = .eq) := by
  refine ⟨?_, fun h₁ h₂ => verCmp_le_trans h₁ h₂, ?_, ?_, ?_⟩
  · intro h₁ h₂
    cases e : verCmp a b with
    | eq => rfl
    | gt => exact absurd e h₁
    | lt =>
      have hg : verCmp b a = .gt := by rw [← verCmp_swap, e]; rfl
      exact absurd hg h₂
  · cases e : verCmp a b with
    | lt => exact Or.inl (by decide)
    | eq => exact Or.inl (by decide)
    | gt =>
      refine Or.inr ?_
      rw [← verCmp_swap, e]
      decide
  · exact ⟨[[Sum.inl 1], [Sum.inl 2], [Sum.inl 0]],
      [[Sum.inl 1], [Sum.inl 1], [Sum.inl 9]], by decide, by decide, by decide⟩
  · exact ⟨[[Sum.inl 1], [Sum.inl 2]],
      [[Sum.inl 1], [Sum.inl 2], [Sum.inl 0]], by decide, by decide, by decide⟩

theorem version_order_total_witness :
    verCmp [[Sum.inl 1], [Sum.inl 2]] [[Sum.inl 1], [Sum.inl 2], [Sum.inl 0]] = .eq :=
  (version_order_total [[Sum.inl 1], [Sum.inl 2]]
    [[Sum.inl 1], [Sum.inl 2], [Sum.inl 0]] [[Sum.inl 1]]).1 (by decide) (by decide)

/-- C6: the candidate selected first is the earliest (insertion order)
candidate that no other candidate strictly beats under the preference order
"lower channel-priority rank, then higher version, then higher build
number". -/
theorem resolver_preference_order (rank : String → Nat) (l : List PackageRecord) :
    selectBest rank l = firstPreferred rank l ∧
    (∀ r, selectBest rank l = some r →
      r ∈ l ∧ ∀ m ∈ l, prefCmp rank m r ≠ .lt) := by
  refine ⟨selectBest_eq_firstPreferred rank l, ?_⟩
  intro r hr
  rw [selectBest_eq_firstPreferred rank l, firstPreferred] at hr
  refine ⟨List.mem_of_find?_eq_some hr, ?_⟩
  intro m hm
  exact unbeatenIn_not_beaten (List.find?_some hr) hm

theorem resolver_preference_order_witness :
    recNose ∈ [recNoseForge, recNose] ∧
      ∀ m ∈ [recNoseForge, recNose], prefCmp rankD m recNose ≠ .lt :=
  (resolver_preference_order rankD [recNoseForge, recNose]).2 recNose (by decide)

/-- C7, counterexample: at the claim's own example — roots
`["a>=2.0", "a<1.0"]` against an index holding only `a 1.5` — the spec
`a>=2.0` has zero candidates, so resolution fails with
`PackagesNotFoundError` (spec §4.4 step 2), not with `UnsatisfiableError`. -/
theorem resolver_unsat_example_is_notfound :
    candidatesOf [recA15] specAge2 = [] ∧
    resolveRoots [recA15] ["defaults"] [specAge2, specAlt1] =
      .error (.packagesNotFound [specText specAge2] ["defaults"]) := by
  constructor <;> rfl

/-- C7 (amended): if every root spec individually has candidates but no
joint choice of one candidate per root is consistent, resolution fails with
a consolidated `UnsatisfiableError` listing the root specs (e.g. roots
`["a>=1.5", "a<1.3"]` against an index holding `a 1.6` and `a 1.2`). -/
theorem resolver_unsatisfiable (index : List PackageRecord) (channels : List String)
    (roots : List MatchSpec)
    (hc : ∀ s ∈ roots, candidatesOf index s ≠ [])
    (hn : ∀ asn ∈ listProd (roots.map (candidatesOf index)),
      consistentAssign asn = false) :
    resolveRoots index channels roots = .error (.unsatisfiable (roots.map specText)) := by
  have h1 : roots.find? (fun s => (candidatesOf index s).isEmpty) = none := by
    rw [List.find?_eq_none]
    intro s hs
    rw [List.isEmpty_iff]
    exact hc s hs
  have h2 : (listProd (roots.map (candidatesOf index))).find? consistentAssign = none := by
    rw [List.find?_eq_none]
    intro a ha
    rw [hn a ha]
    simp
  unfold resolveRoots
  rw [h1, h2]

theorem resolver_unsatisfiable_witness :
    resolveRoots [recA16, recA12] ["defaults"] [specAge15, specAlt13] =
      .error (.unsatisfiable ([specAge15, specAlt13].map specText)) :=
  resolver_unsatisfiable [recA16, recA12] ["defaults"] [specAge15, specAlt13]
    (by decide) (by decide)

/-- C8: serializing a `PackageRecord` to the persisted channel-cache format
and reloading it yields the original record, field for field. -/
theorem cache_roundtrip (r : PackageRecord) :
    deserializeRecord (serializeRecord r) = some r :=
  deserializeRecord_serializeRecord r

/-- C9: in both output paths of the info packages command the dumped record
omits exactly the keys `files`, `auth`, `preferred_env`, `priority`, and
passes every other dumped field through unchanged. -/
theorem info_dump_record_fields (pkg : List (String × String)) (k : String) :
    (k ∈ IGNORE_FIELDS → (dump_record pkg).lookup k = none) ∧
    (k ∉ IGNORE_FIELDS → (dump_record pkg).lookup k = pkg.lookup k) ∧
    print_package_info_json [("p", [pkg])] = [("p", [dump_record pkg])] ∧
    pretty_package_record pkg = dump_record pkg :=
  ⟨dump_record_lookup_none pkg k, dump_record_lookup_keep pkg k, rfl, rfl⟩

theorem info_dump_record_fields_witness :
    (dump_record [("files", "x"), ("name", "n")]).lookup "files" = none ∧
    (dump_record [("files", "x"), ("name", "n")]).lookup "name" = some "n" := by
  constructor
  · exact (info_dump_record_fields [("files", "x"), ("name", "n")] "files").1 (by decide)
  · rw [(info_dump_record_fields [("files", "x"), ("name", "n")] "name").2.1 (by decide)]
    rfl

/-- C10: the platform handed to index loading is always `args.platform`; the
spec's exact `subdir` constraint never changes it and can only turn the
`unknown` flag off, never on. -/
theorem search_platform_from_args (args : SearchArgs) (ctx : Ctx) (sd : StrC) :
    (getIndexCall args ctx).platform = args.platform ∧
    (getIndexCall { args with matchSpec := { args.matchSpec with subdir := sd } }
        ctx).platform = (getIndexCall args ctx).platform ∧
    ((getIndexCall args ctx).unknown = true → args.unknown = true) := by
  refine ⟨rfl, rfl, ?_⟩
  intro h
  have h' : unknownAfterBlocks args ctx = true := h
  unfold unknownAfterBlocks at h'
  simp only at h'
  split at h'
  · cases h'
  · split at h'
    · cases h'
    · exact h'

theorem search_platform_from_args_witness :
    argsStar.unknown = true :=
  (search_platform_from_args argsStar ctxDefaults .any).2.2 (by decide)

end Conda
